import Mathlib

/-!
Verification development for the isolator repository: a shallow embedding of
the executor's sandbox construction (`executor.Run`, `applyMounts`,
`pivotRoot`, ...), the docker layer applier (`docker.increment`), the
buffered log transmitter, and the dispatch loop, together with theorems
checking the natural-language specification against this embedding.
-/

set_option autoImplicit false

namespace Isolator

/-! ## Lexical path model

The Go code manipulates paths with `path/filepath` (`Join`, `Clean`, `Dir`,
`Base`) under unix rules.  We model these functions on lists of characters;
`String` wrappers convert at the boundary.  `resolveChars` is the model of
how the operating system resolves a (possibly uncleaned) path against the
current working directory, which is the new root during layer application:
empty and `.` components are dropped and `..` pops one component (at the
root, `..` stays at the root, as it does after pivot/chroot).
-/

/-- The path component `..` as a character list. -/
def dd : List Char := ['.', '.']

/-- The path component `.` as a character list. -/
def dot : List Char := ['.']

/-- Prepend a character onto the first group of a split. -/
def consGroup (c : Char) : List (List Char) → List (List Char)
  | [] => [[c]]
  | g :: gs => (c :: g) :: gs

/-- Split a character list on `/`, as Go's `strings.Split(p, "/")`. -/
def splitChars : List Char → List (List Char)
  | [] => [[]]
  | c :: cs => if c = '/' then [] :: splitChars cs else consGroup c (splitChars cs)

/-- Join groups with `/` separators, the inverse of `splitChars`. -/
def joinChars : List (List Char) → List Char
  | [] => []
  | [g] => g
  | g :: gs => g ++ '/' :: joinChars gs

/-- One step of Go `filepath.Clean`'s element processing: drop empty and `.`
components, let `..` pop a previous component, keep leading `..` when the
path is not rooted.  The accumulator is kept reversed. -/
def cleanStep (rooted : Bool) (acc : List (List Char)) (c : List Char) : List (List Char) :=
  if c = [] ∨ c = dot then acc
  else if c = dd then
    match acc with
    | [] => if rooted then [] else [dd]
    | a :: rest => if a = dd then c :: a :: rest else rest
  else c :: acc

/-- The cleaned component list of Go `filepath.Clean`. -/
def cleanComps (rooted : Bool) (cs : List (List Char)) : List (List Char) :=
  (cs.foldl (cleanStep rooted) []).reverse

/-- Go `filepath.Clean` for unix paths, on character lists.  The `rooted`
flag of the original algorithm is inlined into the two branches of the test
on the leading separator. -/
def goCleanChars (p : List Char) : List Char :=
  if p = [] then dot
  else if p.head? = some '/' then '/' :: joinChars (cleanComps true (splitChars p))
  else if joinChars (cleanComps false (splitChars p)) = [] then dot
  else joinChars (cleanComps false (splitChars p))

/-- Go `filepath.Join` of two elements: non-empty elements are joined with a
separator and the result is cleaned. -/
def goJoinChars (a b : List Char) : List Char :=
  if a = [] then (if b = [] then [] else goCleanChars b)
  else if b = [] then goCleanChars a
  else goCleanChars (a ++ '/' :: b)

/-- Go `filepath.Dir`: everything up to and including the final separator,
cleaned; `.` if there is no separator. -/
def goDirChars (p : List Char) : List Char :=
  let parts := splitChars p
  if parts.length ≤ 1 then dot
  else goCleanChars (joinChars parts.dropLast ++ ['/'])

/-- Go `filepath.Base`: the last non-empty component; `.` for the empty
path, `/` for a path of separators only. -/
def goBaseChars (p : List Char) : List Char :=
  if p = [] then dot
  else
    match ((splitChars p).filter (fun g => g ≠ [])).getLast? with
    | none => ['/']
    | some b => b

/-- One step of operating-system path resolution relative to the root:
empty and `.` are no-ops, `..` pops (a no-op at the root). -/
def resolveStep (acc : List (List Char)) (c : List Char) : List (List Char) :=
  if c = [] ∨ c = dot then acc
  else if c = dd then acc.dropLast
  else acc ++ [c]

/-- Resolve a path into its canonical component list relative to the root. -/
def resolveChars (p : List Char) : List (List Char) :=
  (splitChars p).foldl resolveStep []

/-! String wrappers used by the embedded code. -/

/-- `filepath.Join` on strings. -/
def pJoin (a b : String) : String := String.mk (goJoinChars a.data b.data)

/-- `filepath.Dir` on strings. -/
def pDir (p : String) : String := String.mk (goDirChars p.data)

/-- `filepath.Base` on strings. -/
def pBase (p : String) : String := String.mk (goBaseChars p.data)

/-- Resolution of a path into canonical components, as strings. -/
def resolve (p : String) : List String := (resolveChars p.data).map String.mk

/-- Whether `pat` is an initial segment of `l`. -/
def hasLead (pat l : List Char) : Bool :=
  match pat, l with
  | [], _ => true
  | _ :: _, [] => false
  | a :: as, b :: bs => a = b && hasLead as bs

/-- `strings.HasPrefix(s, ".wh.")`. -/
def startsWh (s : String) : Bool := hasLead ['.', 'w', 'h', '.'] s.data

/-- `strings.TrimPrefix(s, ".wh.")`, in the case where the test above
already succeeded. -/
def dropWh (s : String) : String := String.mk (s.data.drop 4)

/-- A path component that is a legal directory entry name: non-empty, free
of separators, and not one of the special components `.` and `..`. -/
def goodName (c : List Char) : Bool :=
  c ≠ [] && !c.contains '/' && c ≠ dot && c ≠ dd

/-- A component that survives cleaning: non-empty and not a dot component. -/
def normalComp (c : List Char) : Bool :=
  c ≠ [] && c ≠ dot && c ≠ dd

/-! ## Filesystem model

The layer applier mutates the filesystem rooted at the current working
directory.  We model it as an association list from resolved component
lists to node kinds.  Recursive removal drops a whole subtree; directory
listing enumerates the stored children.  Symbolic links are stored but not
followed: path resolution in this model is purely lexical.
-/

/-- Kind of a filesystem node. -/
inductive FType
  | dir
  | file
  | symlink (target : String)
  deriving DecidableEq, Repr

/-- A filesystem: association list from resolved paths to node kinds. -/
abbrev Fs := List (List String × FType)

/-- Look a path up in a filesystem. -/
def fsLookup (fs : Fs) (p : List String) : Option FType :=
  match fs with
  | [] => none
  | e :: rest => if e.1 = p then some e.2 else fsLookup rest p

/-- Whether `anc` is an ancestor-or-self prefix of `q`. -/
def isUnder (anc q : List String) : Bool :=
  match anc, q with
  | [], _ => true
  | _ :: _, [] => false
  | a :: as, b :: bs => a = b && isUnder as bs

/-- `os.RemoveAll`: remove a path and everything below it.  Go's
`os.RemoveAll` returns nil when the path does not exist, so this operation
is total. -/
def fsRemoveAll (p : List String) (fs : Fs) : Fs :=
  fs.filter (fun e => !(isUnder p e.1))

/-- Whether a path is a directory; the root always is. -/
def fsIsDir (fs : Fs) (p : List String) : Bool :=
  match p with
  | [] => true
  | _ =>
    match fsLookup fs p with
    | some FType.dir => true
    | _ => false

/-- The name under which `q` is a direct child of directory `d`, if it is. -/
def childName (d q : List String) : Option String :=
  if q.dropLast = d ∧ q ≠ [] then q.getLast? else none

/-- `os.ReadDir`: names of the direct children of a directory. -/
def fsChildren (fs : Fs) (d : List String) : List String :=
  fs.filterMap (fun e => childName d e.1)

/-- Errors carried by the embedded Go code.  `retry.Retryable` wraps an
error to mark it as retryable; anything else aborts the retry loop. -/
inductive GoErr
  | retryable (msg : String)
  | fatal (msg : String)
  deriving DecidableEq, Repr

/-- The proper non-empty prefixes of a path, shortest first. -/
def ancestors (p : List String) : List (List String) :=
  (List.range p.length).map (fun i => p.take (i + 1))

/-- One level of `os.MkdirAll`: ok if the path is already a directory,
an error if it exists as something else, created otherwise. -/
def mkdirSingle (fs : Fs) (p : List String) : Except GoErr Fs :=
  match fsLookup fs p with
  | some FType.dir => Except.ok fs
  | some _ => Except.error (GoErr.fatal "mkdir: not a directory")
  | none => Except.ok ((p, FType.dir) :: fs)

/-- `os.MkdirAll`: create every missing ancestor of `p` and `p` itself. -/
def fsMkdirAll (fs : Fs) (p : List String) : Except GoErr Fs :=
  (ancestors p).foldlM mkdirSingle fs

/-- `os.OpenFile(p, O_CREATE|O_WRONLY, mode)` followed by writing the
entry's contents: the parent must be a directory and `p` must not be one. -/
def fsCreateFile (fs : Fs) (p : List String) : Except GoErr Fs :=
  if p = [] then Except.error (GoErr.fatal "open: invalid path")
  else if fsIsDir fs p.dropLast then
    match fsLookup fs p with
    | some FType.dir => Except.error (GoErr.fatal "open: is a directory")
    | _ => Except.ok ((p, FType.file) :: fs.filter (fun e => e.1 ≠ p))
  else Except.error (GoErr.fatal "open: no such directory")

/-- `os.Symlink(target, p)`: fails if `p` exists. -/
def fsSymlink (fs : Fs) (target : String) (p : List String) : Except GoErr Fs :=
  if p = [] then Except.error (GoErr.fatal "symlink: invalid path")
  else if fsIsDir fs p.dropLast then
    match fsLookup fs p with
    | some _ => Except.error (GoErr.fatal "symlink: file exists")
    | none => Except.ok ((p, FType.symlink target) :: fs)
  else Except.error (GoErr.fatal "symlink: no such directory")

/-- `os.OpenFile(p, O_CREATE|O_EXCL, mode)` with `EEXIST` ignored: ensure a
file exists at `p`. -/
def fsEnsureFile (fs : Fs) (p : List String) : Except GoErr Fs :=
  match fsLookup fs p with
  | some _ => Except.ok fs
  | none =>
    if p ≠ [] ∧ fsIsDir fs p.dropLast then Except.ok ((p, FType.file) :: fs)
    else Except.error (GoErr.fatal "open: no such directory")

/-- `os.Link(oldP, newP)`. -/
def fsLink (fs : Fs) (oldP newP : List String) : Except GoErr Fs :=
  if newP = [] then Except.error (GoErr.fatal "link: invalid path")
  else
    match fsLookup fs newP with
    | some _ => Except.error (GoErr.fatal "link: file exists")
    | none =>
      if fsIsDir fs newP.dropLast then
        match fsLookup fs oldP with
        | some FType.dir => Except.error (GoErr.fatal "link: is a directory")
        | some t => Except.ok ((newP, t) :: fs)
        | none => Except.error (GoErr.fatal "link: no such file")
      else Except.error (GoErr.fatal "link: no such directory")

/-! ## The docker layer applier (`docker.increment`) -/

/-- Tar entry types handled by the applier; anything else is fatal. -/
inductive TypeFlag
  | dir
  | reg
  | symlink
  | link
  | other (code : Nat)
  deriving DecidableEq, Repr

/-- The fields of a tar header used by the applier.  `mode` stands for the
bits of `header.FileInfo().Mode()`, including setuid/setgid/sticky. -/
structure Header where
  name : String
  typeflag : TypeFlag
  linkname : String
  uid : Nat
  gid : Nat
  mode : Nat
  deriving DecidableEq, Repr

/-- The filesystem operations performed for an entry, in program order. -/
inductive FsOp
  | removeAll (p : String)
  | mkdirAll (p : String) (mode : Nat)
  | createFile (p : String) (mode : Nat)
  | symlink (oldname newname : String)
  | openExcl (p : String) (mode : Nat)
  | link (oldname newname : String)
  | lchown (p : String) (uid gid : Nat)
  | chmod (p : String) (mode : Nat)
  deriving DecidableEq, Repr

/-- Per-layer state: the filesystem and the two auxiliary string sets `del`
(pending deletes) and `added` (paths created by this layer), both keyed by
the raw strings the Go maps use. -/
structure IncState where
  fs : Fs
  del : List String
  added : List String
  deriving DecidableEq, Repr

/-- Insert into a string set. -/
def insertStr (x : String) (l : List String) : List String :=
  if l.contains x then l else x :: l

/-- The loop body of the opaque-directory case: remove every child of `dir`
whose joined path is not in `added`. -/
def opqSweep (dir : String) (added : List String) (children : List String) (fs : Fs) : Fs :=
  children.foldl (fun fs c =>
    if added.contains (pJoin dir c) then fs
    else fsRemoveAll (resolve (pJoin dir c)) fs) fs

/-- The removals performed by the opaque-directory case, in order. -/
def opqOps (dir : String) (added : List String) (children : List String) : List FsOp :=
  children.filterMap (fun c =>
    if added.contains (pJoin dir c) then none
    else some (FsOp.removeAll (pJoin dir c)))

/-- The common tail of every creating branch: record the name in `added`,
`lchown` with the header's uid/gid, then — unless the entry is a symlink —
`chmod` with the header's mode as the final operation on the path. -/
def finishEntry (h : Header) (del added : List String) (fs' : Fs) (ops : List FsOp) :
    IncState × List FsOp :=
  (⟨fs', del, insertStr h.name added⟩,
    ops ++ [FsOp.lchown h.name h.uid h.gid]
      ++ (if h.typeflag = TypeFlag.symlink then [] else [FsOp.chmod h.name h.mode]))

/-- The classification `switch` of `docker.increment`'s loop body, applied
after the initial `os.RemoveAll(header.Name)`.  In the whiteout case, Go's
`os.RemoveAll` returns nil when the target does not exist, so the
`os.IsNotExist` branch that would record the target in `del` is
unreachable and `del` is never extended. -/
def stepClassified (h : Header) (fs : Fs) (del added : List String) :
    Except GoErr (IncState × List FsOp) :=
  if pBase h.name = ".wh..wh..plnk" then
    Except.ok (⟨fs, del, added⟩, [])
  else if pBase h.name = ".wh..wh..opq" then
    if fsIsDir fs (resolve (pDir h.name)) then
      Except.ok
        (⟨opqSweep (pDir h.name) added (fsChildren fs (resolve (pDir h.name))) fs,
          del, added⟩,
         opqOps (pDir h.name) added (fsChildren fs (resolve (pDir h.name))))
    else Except.error (GoErr.fatal "reading directory failed")
  else if startsWh (pBase h.name) then
    Except.ok
      (⟨fsRemoveAll (resolve (pJoin (pDir h.name) (dropWh (pBase h.name)))) fs,
        del,
        added.filter (fun x => x ≠ pJoin (pDir h.name) (dropWh (pBase h.name)))⟩,
       [FsOp.removeAll (pJoin (pDir h.name) (dropWh (pBase h.name)))])
  else if del.contains h.name then
    Except.ok
      (⟨fs, del.filter (fun x => x ≠ h.name), added.filter (fun x => x ≠ h.name)⟩, [])
  else
    match h.typeflag with
    | TypeFlag.dir =>
      match fsMkdirAll fs (resolve h.name) with
      | Except.ok fs' => Except.ok (finishEntry h del added fs' [FsOp.mkdirAll h.name h.mode])
      | Except.error e => Except.error e
    | TypeFlag.reg =>
      match fsCreateFile fs (resolve h.name) with
      | Except.ok fs' => Except.ok (finishEntry h del added fs' [FsOp.createFile h.name h.mode])
      | Except.error e => Except.error e
    | TypeFlag.symlink =>
      match fsSymlink fs h.linkname (resolve h.name) with
      | Except.ok fs' => Except.ok (finishEntry h del added fs' [FsOp.symlink h.linkname h.name])
      | Except.error e => Except.error e
    | TypeFlag.link =>
      match fsEnsureFile fs (resolve h.linkname) with
      | Except.ok fs1 =>
        match fsLink fs1 (resolve h.linkname) (resolve h.name) with
        | Except.ok fs' =>
          Except.ok (finishEntry h del added fs'
            [FsOp.openExcl h.linkname h.mode, FsOp.link h.linkname h.name])
        | Except.error e => Except.error e
      | Except.error e => Except.error e
    | TypeFlag.other _ => Except.error (GoErr.fatal "unsupported file type")

/-- One iteration of `docker.increment`'s tar loop: the unconditional
`os.RemoveAll(header.Name)` followed by the classification switch. -/
def step (h : Header) (s : IncState) : Except GoErr (IncState × List FsOp) :=
  match stepClassified h (fsRemoveAll (resolve h.name) s.fs) s.del s.added with
  | Except.ok (s', ops) => Except.ok (s', FsOp.removeAll h.name :: ops)
  | Except.error e => Except.error e

/-- Apply a whole layer's tar entries in order. -/
def runLayer : List Header → IncState → Except GoErr IncState
  | [], s => Except.ok s
  | h :: hs, s =>
    match step h s with
    | Except.ok (s', _) => runLayer hs s'
    | Except.error e => Except.error e

/-- `docker.increment` after the blob stream has been obtained: apply the
tar entries, then compare `"sha256:" + hex(hasher.Sum(nil))` — the hash of
the raw compressed bytes consumed through the TeeReader — with the digest
declared in the manifest.  A mismatch is a retryable error.  The hash
function is a parameter of the model. -/
def increment (hash : List Nat → String) (digest : String) (blob : List Nat)
    (entries : List Header) (s : IncState) : Except GoErr IncState :=
  match runLayer entries s with
  | Except.error e => Except.error e
  | Except.ok s' =>
    if "sha256:" ++ hash blob = digest then Except.ok s'
    else
      Except.error (GoErr.retryable ("digest doesn't match, expected: " ++ digest
        ++ ", got: " ++ ("sha256:" ++ hash blob)))

/-- Modelled from the spec: `retry.Do` lives in `lib/retry`, which is not
part of the provided sources.  Per the spec (4.A), the operation either
succeeds, fails non-retryably (abort immediately), or fails retryably
(retry up to the attempt bound, the final attempt's error surfacing).  The
operation is indexed by the attempt number so that re-invocation — which
for a layer means re-downloading and re-applying — is visible. -/
def retryGo {α : Type} (op : Nat → Except GoErr α) : Nat → Nat → Except GoErr α
  | 0, _ => Except.error (GoErr.fatal "retry: no attempts")
  | n + 1, i =>
    match op i with
    | Except.ok a => Except.ok a
    | Except.error (GoErr.fatal e) => Except.error (GoErr.fatal e)
    | Except.error (GoErr.retryable e) =>
      if n = 0 then Except.error (GoErr.retryable e) else retryGo op n (i + 1)

/-- Modelled from the spec: `retry.Do` with an attempt budget, starting at
attempt `0`. -/
def retryDo {α : Type} (attempts : Nat) (op : Nat → Except GoErr α) : Except GoErr α :=
  retryGo op attempts 0

/-! ## Sandbox construction (`executor.Run`, namespace mode)

The sequence of system calls issued while preparing the new root is modelled
as a trace.  Each Go helper contributes the trace of the calls it makes, in
program order; `setupOps` concatenates them in the order `Run` invokes the
helpers.  The `links` table of `populateDev` is a Go map whose iteration
order is unspecified; the model fixes the source-listing order, which no
theorem below depends on.
-/

/-- Mount flags used by the executor. -/
inductive MFlag
  | slave
  | recursive
  | bind
  | priv
  | remount
  | rdonly
  | detach
  deriving DecidableEq, Repr

/-- A system call issued during sandbox construction. -/
inductive Sys
  | mount (src dst fstype : String) (flags : List MFlag)
  | mkdir (p : String)
  | chdir (p : String)
  | openCreate (p : String)
  | symlink (oldname newname : String)
  | pivot (newRoot putOld : String)
  | unmount (p : String) (flags : List MFlag)
  | remove (p : String)
  | mkdirAll (p : String)
  | writeFile (p content : String)
  deriving DecidableEq, Repr

/-- `wire.Mount`. -/
structure Mount where
  host : String
  container : String
  writable : Bool
  deriving DecidableEq, Repr

/-- `wire.Config` as used by the executor. -/
structure WConfig where
  chroot : Bool
  mounts : List Mount
  deriving DecidableEq, Repr

/-- `prepareNewRoot`: remount `/` recursively as slave, create `root`,
bind it onto itself, and `chdir` into it. -/
def prepareNewRootOps : List Sys :=
  [Sys.mount "" "/" "" [MFlag.slave, MFlag.recursive],
   Sys.mkdir "root",
   Sys.mount "root" "root" "" [MFlag.bind, MFlag.priv],
   Sys.chdir "root"]

/-- `mountProc`. -/
def mountProcOps : List Sys :=
  [Sys.mkdir "proc", Sys.mount "none" "proc" "proc" []]

/-- `mountTmp`. -/
def mountTmpOps : List Sys :=
  [Sys.mkdir "tmp", Sys.mount "none" "tmp" "tmpfs" []]

/-- `populateDev`: tmpfs on `dev`, bind the five host device nodes, and
create the fd symlinks. -/
def populateDevOps : List Sys :=
  [Sys.mkdir "dev", Sys.mount "none" "dev" "tmpfs" []]
    ++ (["console", "null", "zero", "random", "urandom"].flatMap (fun d =>
        [Sys.openCreate (pJoin "dev" d),
         Sys.mount (pJoin "/" (pJoin "dev" d)) (pJoin "dev" d) "" [MFlag.bind, MFlag.priv]]))
    ++ [Sys.symlink "/proc/self/fd" "dev/fd",
        Sys.symlink "fd/0" "dev/stdin",
        Sys.symlink "fd/1" "dev/stdout",
        Sys.symlink "fd/2" "dev/stderr"]

/-- `applyMounts`: for each mount, force the container path relative by
joining it to `.`, create it, bind it, and remount read-only unless
writable. -/
def applyMountsOps (ms : List Mount) : List Sys :=
  ms.flatMap (fun m =>
    [Sys.mkdirAll (pJoin "." m.container),
     Sys.mount m.host (pJoin "." m.container) "" [MFlag.bind, MFlag.priv]]
      ++ (if m.writable then []
          else [Sys.mount m.host (pJoin "." m.container) ""
            [MFlag.bind, MFlag.priv, MFlag.remount, MFlag.rdonly]]))

/-- `pivotRoot`. -/
def pivotRootOps : List Sys :=
  [Sys.mkdir ".old",
   Sys.pivot "." ".old",
   Sys.mount "" ".old" "" [MFlag.priv, MFlag.recursive],
   Sys.unmount ".old" [MFlag.detach],
   Sys.remove ".old"]

/-- `configureDNS`. -/
def configureDNSOps : List Sys :=
  [Sys.mkdir "etc",
   Sys.writeFile "etc/resolv.conf" "nameserver 8.8.8.8\nnameserver 8.8.4.4\n"]

/-- The full namespace-mode setup sequence, in the order `Run` invokes the
helpers. -/
def setupOps (ms : List Mount) : List Sys :=
  prepareNewRootOps ++ mountProcOps ++ mountTmpOps ++ populateDevOps
    ++ applyMountsOps ms ++ pivotRootOps ++ configureDNSOps

/-! ## Log transmitter (`logTransmitter`)

`Write` buffers until the accumulated length reaches 100 bytes, then emits
one `Log` frame with the concatenation; `Flush` emits the residual buffer.
The model tracks the buffered bytes and the optional emitted frame; sends
are modelled as always succeeding.
-/

/-- Buffered state of one log transmitter. -/
structure LogTx where
  buf : List Nat
  deriving DecidableEq, Repr

/-- `logTransmitter.Write`: the returned option is the text of the `Log`
frame emitted by this call, if any. -/
def ltWrite (st : LogTx) (data : List Nat) : LogTx × Option (List Nat) :=
  if st.buf.length + data.length < 100 then ({ buf := st.buf ++ data }, none)
  else ({ buf := [] }, some (st.buf ++ data))

/-- `logTransmitter.Flush`. -/
def ltFlush (st : LogTx) : LogTx × Option (List Nat) :=
  if st.buf = [] then (st, none)
  else ({ buf := [] }, some st.buf)

/-- A sequence of `Write` calls, collecting the emitted frames in order. -/
def ltWriteAll : List (List Nat) → LogTx → LogTx × List (List Nat)
  | [], st => (st, [])
  | d :: ds, st =>
    match ltWrite st d with
    | (st', none) => ltWriteAll ds st'
    | (st', some f) =>
      match ltWriteAll ds st' with
      | (st'', fs) => (st'', f :: fs)

/-! ## Executor dispatch (`executor.Run`)

The server goroutine receives one `Config`, performs sandbox setup, then
loops receiving requests and answering each with one `Result`.  Receive
outcomes are modelled as a list of events; the context is taken as not
cancelled, under which the loop's error test reduces to: EOF exits cleanly,
any other receive error is fatal.  `Log` frames produced during `Execute`
are not part of this model, which tracks `Result` frames only.
-/

/-- Wire stream tags. -/
inductive WStream
  | out
  | err
  deriving DecidableEq, Repr

/-- The wire message family registered by host and executor. -/
inductive Msg
  | config (c : WConfig)
  | execute (command : String)
  | copy (src dst : String)
  | initFromDocker (image tag : String)
  | result (error : String)
  | log (stream : WStream) (text : String)
  deriving DecidableEq, Repr

/-- Outcome of one `client.Receive()` call. -/
inductive RecvEvent
  | msg (m : Msg)
  | eof
  | fail (e : String)
  deriving DecidableEq, Repr

/-- Observable outcome of the server goroutine: whether sandbox setup ran,
the `Result` frames sent, and the terminal error if any. -/
structure ExecOut where
  setupDone : Bool
  sent : List Msg
  err : Option String
  deriving DecidableEq, Repr

/-- Whether a message is one of the three request kinds. -/
def isRequest : Msg → Bool
  | Msg.execute _ => true
  | Msg.copy _ _ => true
  | Msg.initFromDocker _ _ => true
  | _ => false

/-- The dispatch loop, parameterized by the request handlers' outcomes:
`handle m = some e` means the handler returned error `e`, `none` means
success.  Exhausting the event list behaves like EOF (the reader is at end
of stream). -/
def loopRun (handle : Msg → Option String) : List RecvEvent → List Msg × Option String
  | [] => ([], none)
  | RecvEvent.eof :: _ => ([], none)
  | RecvEvent.fail e :: _ => ([], some ("receiving message failed: " ++ e))
  | RecvEvent.msg m :: rest =>
    if isRequest m then
      match loopRun handle rest with
      | (sent, out) =>
        (Msg.result ((handle m).getD "") :: sent, out)
    else ([], some "unexpected message")

/-- The server goroutine of `executor.Run`: the first frame must be a
`Config`; any other message, a receive failure, or end of stream before it
is fatal, and nothing else happens.  Otherwise the sandbox is built and the
dispatch loop runs. -/
def runExec (handle : Msg → Option String) : List RecvEvent → ExecOut
  | [] => ⟨false, [], some "fetching configuration failed: EOF"⟩
  | RecvEvent.eof :: _ => ⟨false, [], some "fetching configuration failed: EOF"⟩
  | RecvEvent.fail e :: _ => ⟨false, [], some ("fetching configuration failed: " ++ e)⟩
  | RecvEvent.msg (Msg.config _) :: rest =>
    match loopRun handle rest with
    | (sent, e) => ⟨true, sent, e⟩
  | RecvEvent.msg _ :: _ => ⟨false, [], some "expected Config message"⟩

/-! ## Predicates used by the theorem statements -/

/-- Whether an entry reaches one of the four creating branches of the
classification switch: not a marker, not a whiteout, not suppressed by
`del`, and of a supported type. -/
def createsEntry (h : Header) (s : IncState) : Bool :=
  pBase h.name ≠ ".wh..wh..plnk" && pBase h.name ≠ ".wh..wh..opq"
    && !startsWh (pBase h.name) && !s.del.contains h.name
    && (h.typeflag = TypeFlag.dir || h.typeflag = TypeFlag.reg
        || h.typeflag = TypeFlag.symlink || h.typeflag = TypeFlag.link)

/-- Whether the first receive event carries a `Config` message. -/
def firstIsConfig : List RecvEvent → Bool
  | RecvEvent.msg (Msg.config _) :: _ => true
  | _ => false

/-- Whether a path contains a `..` component. -/
def hasDotDot (s : String) : Bool := decide (dd ∈ splitChars s.data)

/-- A realized mount point is confined to the new root when it is relative
and free of `..` components. -/
def mountConfined (s : String) : Bool :=
  decide (s.data.head? ≠ some '/') && !hasDotDot s

/-- The destination path of a sandbox operation that targets a path. -/
def sysTarget : Sys → Option String
  | Sys.mount _ dst _ _ => some dst
  | Sys.mkdirAll p => some p
  | _ => none

/-- Well-formed filesystem: every key is a non-empty list of legal entry
names. -/
def fsWf (fs : Fs) : Bool :=
  fs.all (fun e => !e.1.isEmpty && e.1.all (fun c => goodName c.data))

/-! ### Lemmas about the lexical path functions -/

theorem normalComp_iff (c : List Char) :
    normalComp c = true ↔ c ≠ [] ∧ c ≠ dot ∧ c ≠ dd := by
  simp [normalComp, and_assoc]

theorem goodName_iff (c : List Char) :
    goodName c = true ↔ c ≠ [] ∧ '/' ∉ c ∧ c ≠ dot ∧ c ≠ dd := by
  simp [goodName, and_assoc, List.contains, List.elem_eq_mem]

theorem cleanStep_skip (rooted : Bool) (acc : List (List Char)) (c : List Char)
    (h : c = [] ∨ c = dot) : cleanStep rooted acc c = acc := by
  unfold cleanStep
  rw [if_pos h]

theorem cleanStep_push (rooted : Bool) (acc : List (List Char)) (c : List Char)
    (h1 : ¬(c = [] ∨ c = dot)) (h2 : ¬ c = dd) : cleanStep rooted acc c = c :: acc := by
  unfold cleanStep
  rw [if_neg h1, if_neg h2]

theorem cleanStep_dd (rooted : Bool) (acc : List (List Char)) :
    cleanStep rooted acc dd = (match acc with
      | [] => if rooted then [] else [dd]
      | a :: rest => if a = dd then dd :: a :: rest else rest) := by
  unfold cleanStep
  rw [if_neg (by decide), if_pos rfl]

theorem resolveStep_skip (acc : List (List Char)) (c : List Char)
    (h : c = [] ∨ c = dot) : resolveStep acc c = acc := by
  unfold resolveStep
  rw [if_pos h]

theorem resolveStep_push (acc : List (List Char)) (c : List Char)
    (h1 : ¬(c = [] ∨ c = dot)) (h2 : ¬ c = dd) : resolveStep acc c = acc ++ [c] := by
  unfold resolveStep
  rw [if_neg h1, if_neg h2]

theorem resolveStep_dd (acc : List (List Char)) : resolveStep acc dd = acc.dropLast := by
  unfold resolveStep
  rw [if_neg (by decide), if_pos rfl]

theorem splitChars_ne_nil (l : List Char) : splitChars l ≠ [] := by
  cases l with
  | nil => simp [splitChars]
  | cons c cs =>
    simp only [splitChars]
    split
    · simp
    · unfold consGroup; split <;> simp

theorem consGroup_append (c : Char) (xs ys : List (List Char)) (h : xs ≠ []) :
    consGroup c (xs ++ ys) = consGroup c xs ++ ys := by
  cases xs with
  | nil => exact absurd rfl h
  | cons g gs => simp [consGroup]

theorem splitChars_slash (a b : List Char) :
    splitChars (a ++ '/' :: b) = splitChars a ++ splitChars b := by
  induction a with
  | nil => simp [splitChars]
  | cons c cs ih =>
    show splitChars (c :: (cs ++ '/' :: b)) = _
    simp only [splitChars]
    by_cases hc : c = '/'
    · rw [if_pos hc, if_pos hc, ih]
      rfl
    · rw [if_neg hc, if_neg hc, ih, consGroup_append c _ _ (splitChars_ne_nil cs)]

theorem splitChars_noslash (l : List Char) (h : '/' ∉ l) :
    splitChars l = [l] := by
  induction l with
  | nil => rfl
  | cons c cs ih =>
    simp only [List.mem_cons, not_or] at h
    have hc : ¬ c = '/' := fun hc => h.1 hc.symm
    rw [splitChars, if_neg hc, ih h.2]
    rfl

theorem splitChars_groups_noslash (l : List Char) :
    ∀ g ∈ splitChars l, '/' ∉ g := by
  induction l with
  | nil =>
    intro g hg
    simp only [splitChars, List.mem_singleton] at hg
    simp [hg]
  | cons c cs ih =>
    intro g hg
    simp only [splitChars] at hg
    by_cases hc : c = '/'
    · rw [if_pos hc] at hg
      rcases List.mem_cons.mp hg with hg | hg
      · simp [hg]
      · exact ih g hg
    · rw [if_neg hc] at hg
      rcases he : splitChars cs with _ | ⟨g0, gs⟩
      · exact absurd he (splitChars_ne_nil cs)
      · rw [he, consGroup] at hg
        rcases List.mem_cons.mp hg with hg | hg
        · subst hg
          have h0 : '/' ∉ g0 := ih g0 (by rw [he]; exact List.mem_cons_self _ _)
          simp only [List.mem_cons, not_or]
          exact ⟨fun hh => hc hh.symm, h0⟩
        · exact ih g (by rw [he]; exact List.mem_cons_of_mem _ hg)

theorem joinChars_cons (g g' : List Char) (gs : List (List Char)) :
    joinChars (g :: g' :: gs) = g ++ '/' :: joinChars (g' :: gs) := rfl

theorem splitChars_join (l : List (List Char))
    (h : ∀ g ∈ l, '/' ∉ g) (hne : l ≠ []) :
    splitChars (joinChars l) = l := by
  induction l with
  | nil => exact absurd rfl hne
  | cons g gs ih =>
    cases gs with
    | nil => exact splitChars_noslash g (h g (by simp))
    | cons g' gs' =>
      rw [joinChars_cons, splitChars_slash,
        splitChars_noslash g (h g (by simp)),
        ih (fun x hx => h x (by simp [hx])) (by simp)]
      rfl

theorem joinChars_eq_nil (l : List (List Char)) (h : ∀ g ∈ l, g ≠ [])
    (he : joinChars l = []) : l = [] := by
  cases l with
  | nil => rfl
  | cons g gs =>
    cases gs with
    | nil => exact absurd he (h g (by simp))
    | cons g' gs' =>
      rw [joinChars_cons] at he
      rcases g with _ | ⟨c, cs⟩
      · exact absurd rfl (h [] (by simp))
      · simp at he

theorem joinChars_head (g : List Char) (gs : List (List Char)) (h : g ≠ []) :
    (joinChars (g :: gs)).head? = g.head? := by
  cases gs with
  | nil => rfl
  | cons g' gs' =>
    rw [joinChars_cons]
    cases g with
    | nil => exact absurd rfl h
    | cons c cs => rfl

theorem resolveFold_normals (l : List (List Char)) (h : ∀ c ∈ l, normalComp c = true) :
    ∀ acc, List.foldl resolveStep acc l = acc ++ l := by
  induction l with
  | nil => simp
  | cons c cs ih =>
    intro acc
    obtain ⟨h1, h2, h3⟩ := (normalComp_iff c).mp (h c (by simp))
    rw [List.foldl_cons, resolveStep_push acc c (not_or.mpr ⟨h1, h2⟩) h3,
      ih (fun x hx => h x (by simp [hx]))]
    simp

theorem resolveFold_dds (k : Nat) :
    List.foldl resolveStep [] (List.replicate k dd) = [] := by
  induction k with
  | zero => rfl
  | succ n ih => rw [List.replicate_succ, List.foldl_cons, resolveStep_dd]; exact ih

/-- The central invariant: folding `filepath.Clean`'s component processing
over a component list keeps a stack of the shape
`rest.reverse ++ (leading ..s)`, where `rest` is exactly what
operating-system resolution from the root produces on the same input. -/
theorem clean_fold_inv (rooted : Bool) (l : List (List Char)) :
    ∀ (k : Nat) (rest : List (List Char)),
      (∀ c ∈ rest, normalComp c = true) →
      (rooted = true → k = 0) →
      ∃ k' rest',
        List.foldl (cleanStep rooted) (rest.reverse ++ List.replicate k dd) l
          = rest'.reverse ++ List.replicate k' dd ∧
        List.foldl resolveStep rest l = rest' ∧
        (∀ c ∈ rest', normalComp c = true) ∧
        (∀ c ∈ rest', c ∈ rest ∨ c ∈ l) ∧
        (rooted = true → k' = 0) := by
  induction l with
  | nil =>
    exact fun k rest h hr =>
      ⟨k, rest, rfl, rfl, h, fun c hc => Or.inl hc, hr⟩
  | cons c cs ih =>
    intro k rest hrest hroot
    by_cases hc0 : c = [] ∨ c = dot
    · rw [List.foldl_cons, List.foldl_cons,
        cleanStep_skip rooted _ c hc0, resolveStep_skip rest c hc0]
      obtain ⟨k', rest', h1, h2, h3, h4, h5⟩ := ih k rest hrest hroot
      exact ⟨k', rest', h1, h2, h3,
        fun x hx => (h4 x hx).imp id (fun hh => by simp [hh]), h5⟩
    · by_cases hdd : c = dd
      · subst hdd
        rcases List.eq_nil_or_concat rest with hre | ⟨r, x, hre⟩
        · subst hre
          -- the stack is only leading `..`s; resolution stays at the root
          have hres : resolveStep [] dd = [] := resolveStep_dd []
          cases k with
          | zero =>
            have hclean : cleanStep rooted
                (([] : List (List Char)).reverse ++ List.replicate 0 dd) dd
                = ([] : List (List Char)).reverse
                  ++ List.replicate (if rooted then 0 else 1) dd := by
              rw [cleanStep_dd]
              cases rooted <;> rfl
            rw [List.foldl_cons, List.foldl_cons, hclean, hres]
            obtain ⟨k', rest', h1, h2, h3, h4, h5⟩ :=
              ih (if rooted then 0 else 1) [] (by simp)
                (fun hr => by simp [hr])
            refine ⟨k', rest', h1, h2, h3, ?_, h5⟩
            intro x hx
            rcases h4 x hx with hx' | hx'
            · cases hx'
            · exact Or.inr (by simp [hx'])
          | succ j =>
            have hclean : cleanStep rooted
                (([] : List (List Char)).reverse ++ List.replicate (j + 1) dd) dd
                = ([] : List (List Char)).reverse ++ List.replicate (j + 2) dd := by
              rw [cleanStep_dd]
              simp [List.replicate_succ]
            have hroot' : rooted = true → j + 2 = 0 := by
              intro hr
              exact absurd (hroot hr) (by simp)
            rw [List.foldl_cons, List.foldl_cons, hclean, hres]
            obtain ⟨k', rest', h1, h2, h3, h4, h5⟩ := ih (j + 2) [] (by simp) hroot'
            refine ⟨k', rest', h1, h2, h3, ?_, h5⟩
            intro x hx
            rcases h4 x hx with hx' | hx'
            · cases hx'
            · exact Or.inr (by simp [hx'])
        · rw [List.concat_eq_append] at hre
          subst hre
          -- a real component is on top of the stack; `..` pops it
          have hx : normalComp x = true := hrest x (by simp)
          have hxdd : ¬ x = dd := ((normalComp_iff x).mp hx).2.2
          have hclean : cleanStep rooted ((r ++ [x]).reverse ++ List.replicate k dd) dd
              = r.reverse ++ List.replicate k dd := by
            rw [cleanStep_dd]
            simp [List.reverse_append, hxdd]
          have hres : resolveStep (r ++ [x]) dd = r := by
            rw [resolveStep_dd]
            simp
          rw [List.foldl_cons, List.foldl_cons, hclean, hres]
          obtain ⟨k', rest', h1, h2, h3, h4, h5⟩ :=
            ih k r (fun y hy => hrest y (by simp [hy])) hroot
          refine ⟨k', rest', h1, h2, h3, ?_, h5⟩
          intro y hy
          rcases h4 y hy with hy' | hy'
          · exact Or.inl (by simp [hy'])
          · exact Or.inr (by simp [hy'])
      · -- a normal component is pushed on both sides
        have hclean : cleanStep rooted (rest.reverse ++ List.replicate k dd) c
            = (rest ++ [c]).reverse ++ List.replicate k dd := by
          rw [cleanStep_push rooted _ c hc0 hdd]
          simp [List.reverse_append]
        have hres : resolveStep rest c = rest ++ [c] :=
          resolveStep_push rest c hc0 hdd
        rw [List.foldl_cons, List.foldl_cons, hclean, hres]
        push_neg at hc0
        obtain ⟨k', rest', h1, h2, h3, h4, h5⟩ :=
          ih k (rest ++ [c])
            (by
              intro y hy
              rcases List.mem_append.mp hy with hy' | hy'
              · exact hrest y hy'
              · simp only [List.mem_singleton] at hy'
                subst hy'
                exact (normalComp_iff y).mpr ⟨hc0.1, hc0.2, hdd⟩)
            hroot
        refine ⟨k', rest', h1, h2, h3, ?_, h5⟩
        intro y hy
        rcases h4 y hy with hy' | hy'
        · rcases List.mem_append.mp hy' with hy'' | hy''
          · exact Or.inl hy''
          · simp only [List.mem_singleton] at hy''
            exact Or.inr (by simp [hy''])
        · exact Or.inr (by simp [hy'])

/-- Shape of `cleanComps`: some leading `..`s (none when rooted) followed by
exactly the components operating-system resolution produces. -/
theorem cleanComps_spec (rooted : Bool) (l : List (List Char)) :
    ∃ k rest,
      cleanComps rooted l = List.replicate k dd ++ rest ∧
      (∀ c ∈ rest, normalComp c = true) ∧
      (∀ c ∈ rest, c ∈ l) ∧
      List.foldl resolveStep [] l = rest ∧
      (rooted = true → k = 0) := by
  obtain ⟨k', rest', h1, h2, h3, h4, h5⟩ :=
    clean_fold_inv rooted l 0 [] (by simp) (fun _ => rfl)
  refine ⟨k', rest', ?_, h3, ?_, h2, h5⟩
  · unfold cleanComps
    simp only [List.reverse_nil, List.replicate_zero, List.nil_append] at h1
    rw [h1, List.reverse_append, List.reverse_reverse, List.reverse_replicate]
  · intro c hc
    rcases h4 c hc with h | h
    · cases h
    · exact h

theorem resolveFold_cleanComps (rooted : Bool) (l : List (List Char)) :
    List.foldl resolveStep [] (cleanComps rooted l) = List.foldl resolveStep [] l := by
  obtain ⟨k, rest, h1, h2, _, h4, _⟩ := cleanComps_spec rooted l
  rw [h1, List.foldl_append, resolveFold_dds, resolveFold_normals rest h2 [], h4]
  simp

/-- Groups of `cleanComps` output are free of separators whenever the input
groups are. -/
theorem cleanComps_noslash (rooted : Bool) (l : List (List Char))
    (h : ∀ g ∈ l, '/' ∉ g) : ∀ g ∈ cleanComps rooted l, '/' ∉ g := by
  obtain ⟨k, rest, h1, _, h3, _, _⟩ := cleanComps_spec rooted l
  intro g hg
  rw [h1] at hg
  rcases List.mem_append.mp hg with hg | hg
  · have : g = dd := List.eq_of_mem_replicate hg
    subst this
    decide
  · exact h g (h3 g hg)

theorem cleanComps_ne_nil_groups (rooted : Bool) (l : List (List Char)) :
    ∀ g ∈ cleanComps rooted l, g ≠ [] := by
  obtain ⟨k, rest, h1, h2, _, _, _⟩ := cleanComps_spec rooted l
  intro g hg
  rw [h1] at hg
  rcases List.mem_append.mp hg with hg | hg
  · have : g = dd := List.eq_of_mem_replicate hg
    subst this
    decide
  · exact ((normalComp_iff g).mp (h2 g hg)).1

/-- Cleaning a path does not change what it resolves to. -/
theorem resolveChars_goClean (p : List Char) :
    resolveChars (goCleanChars p) = resolveChars p := by
  by_cases hp : p = []
  · subst hp
    rfl
  · unfold goCleanChars
    rw [if_neg hp]
    by_cases hr : p.head? = some '/'
    · -- rooted: the result is '/' followed by the joined components
      obtain ⟨k, rest, h1, h2, h3, h4, h5⟩ := cleanComps_spec true (splitChars p)
      have hslash : ∀ g ∈ cleanComps true (splitChars p), '/' ∉ g :=
        cleanComps_noslash _ _ (splitChars_groups_noslash p)
      have hk : k = 0 := h5 rfl
      subst hk
      simp only [List.replicate_zero, List.nil_append] at h1
      rw [if_pos hr]
      unfold resolveChars
      rw [show splitChars ('/' :: joinChars (cleanComps true (splitChars p)))
            = [] :: splitChars (joinChars (cleanComps true (splitChars p))) by
          rw [splitChars, if_pos rfl]]
      rw [List.foldl_cons, resolveStep_skip [] [] (Or.inl rfl)]
      by_cases hc : cleanComps true (splitChars p) = []
      · rw [hc] at h1
        rw [hc, h4, ← h1]
        rfl
      · rw [splitChars_join _ hslash hc, h1, resolveFold_normals rest h2 [], h4]
        simp
    · -- not rooted: `.` when everything cleaned away, the joined components otherwise
      obtain ⟨k, rest, h1, h2, h3, h4, h5⟩ := cleanComps_spec false (splitChars p)
      have hslash : ∀ g ∈ cleanComps false (splitChars p), '/' ∉ g :=
        cleanComps_noslash _ _ (splitChars_groups_noslash p)
      rw [if_neg hr]
      by_cases hs : joinChars (cleanComps false (splitChars p)) = []
      · have hcnil : cleanComps false (splitChars p) = [] :=
          joinChars_eq_nil _ (cleanComps_ne_nil_groups false (splitChars p)) hs
        rw [hcnil] at h1
        have hrest : rest = [] := by
          rcases List.append_eq_nil.mp h1.symm with ⟨_, h⟩
          exact h
        rw [if_pos hs]
        unfold resolveChars
        rw [h4, hrest]
        rfl
      · rw [if_neg hs]
        unfold resolveChars
        rw [splitChars_join _ hslash (fun hc => hs (by rw [hc]; rfl)), h1,
          List.foldl_append, resolveFold_dds, resolveFold_normals rest h2 [], h4]
        simp

/-- Eta for strings: rebuilding a string from its characters is the identity. -/
theorem string_mk_data (s : String) : String.mk s.data = s := rfl

/-- The characters of a string built from a character list. -/
theorem string_data_mk (l : List Char) : (String.mk l).data = l := rfl

/-- Resolving `filepath.Join(d, c)` for a legal entry name `c` appends one
component to the resolution of `d`. -/
theorem resolve_pJoin_name (d c : String) (h : goodName c.data = true) :
    resolve (pJoin d c) = resolve d ++ [c] := by
  obtain ⟨hne, hsl, hdot, hdd⟩ := (goodName_iff c.data).mp h
  have hnorm : ¬(c.data = [] ∨ c.data = dot) := not_or.mpr ⟨hne, hdot⟩
  unfold pJoin goJoinChars
  by_cases hd : d.data = []
  · rw [if_pos hd, if_neg hne]
    unfold resolve
    rw [string_data_mk, resolveChars_goClean]
    unfold resolveChars
    rw [splitChars_noslash c.data hsl, List.foldl_cons,
      resolveStep_push [] c.data hnorm hdd]
    have : resolveChars d.data = [] := by
      rw [hd]
      rfl
    unfold resolveChars at this
    rw [this]
    simp [string_mk_data]
  · rw [if_neg hd, if_neg hne]
    unfold resolve
    rw [string_data_mk, resolveChars_goClean]
    unfold resolveChars
    rw [splitChars_slash, splitChars_noslash c.data hsl, List.foldl_append,
      List.foldl_cons, List.foldl_nil, resolveStep_push _ c.data hnorm hdd]
    simp [string_mk_data]

/-- `filepath.Join(".", p)` never yields a rooted path: the container path of
a mount is always realized relative to the working directory. -/
theorem pJoin_dot_relative (p : String) : (pJoin "." p).data.head? ≠ some '/' := by
  unfold pJoin goJoinChars
  have hdot : (".").data = dot := rfl
  rw [hdot]
  by_cases hp : p.data = []
  · rw [if_neg (by decide), if_pos hp]
    decide
  · rw [if_neg (by decide), if_neg hp]
    show (String.mk (goCleanChars ('.' :: '/' :: p.data))).data.head? ≠ some '/'
    unfold goCleanChars
    rw [if_neg (by simp), if_neg (by simp)]
    by_cases hs : joinChars (cleanComps false (splitChars ('.' :: '/' :: p.data))) = []
    · rw [if_pos hs]
      decide
    · rw [if_neg hs]
      rcases hc : cleanComps false (splitChars ('.' :: '/' :: p.data)) with _ | ⟨g, gs⟩
      · rw [hc] at hs
        exact absurd rfl hs
      · have hg1 : g ≠ [] := cleanComps_ne_nil_groups _ _ g (by rw [hc]; simp)
        have hg2 : '/' ∉ g :=
          cleanComps_noslash false (splitChars ('.' :: '/' :: p.data))
            (splitChars_groups_noslash _) g (by rw [hc]; simp)
        rw [string_data_mk, joinChars_head g gs hg1]
        rcases g with _ | ⟨x, xs⟩
        · exact absurd rfl hg1
        · simp only [List.head?_cons, ne_eq, Option.some.injEq]
          intro hx
          subst hx
          exact hg2 (by simp)

/-- Cleaning introduces no `..` component that was not already present. -/
theorem cleanFold_no_dd (rooted : Bool) (l : List (List Char)) :
    ∀ acc, dd ∉ l → (∀ c ∈ acc, c ≠ dd) →
      ∀ c ∈ List.foldl (cleanStep rooted) acc l, c ≠ dd := by
  induction l with
  | nil => exact fun acc _ hacc => hacc
  | cons c cs ih =>
    intro acc hl hacc
    have hcdd : c ≠ dd := by
      intro hc
      exact hl (by rw [← hc]; simp)
    have hl' : dd ∉ cs := fun hh => hl (by simp [hh])
    rw [List.foldl_cons]
    by_cases h0 : c = [] ∨ c = dot
    · rw [cleanStep_skip rooted acc c h0]
      exact ih acc hl' hacc
    · rw [cleanStep_push rooted acc c h0 hcdd]
      refine ih _ hl' ?_
      intro x hx
      rcases List.mem_cons.mp hx with hx | hx
      · rw [hx]; exact hcdd
      · exact hacc x hx

theorem cleanComps_ddFree (rooted : Bool) (l : List (List Char)) (h : dd ∉ l) :
    dd ∉ cleanComps rooted l := by
  intro hc
  unfold cleanComps at hc
  rw [List.mem_reverse] at hc
  exact cleanFold_no_dd rooted l [] h (by simp) dd hc rfl

/-- If the original container path has no `..` component, neither does the
realized path `filepath.Join(".", p)`. -/
theorem pJoin_dot_ddFree (p : String) (h : dd ∉ splitChars p.data) :
    dd ∉ splitChars (pJoin "." p).data := by
  unfold pJoin goJoinChars
  have hdot : (".").data = dot := rfl
  rw [hdot]
  by_cases hp : p.data = []
  · rw [if_neg (by decide), if_pos hp]
    decide
  · rw [if_neg (by decide), if_neg hp]
    show dd ∉ splitChars (String.mk (goCleanChars ('.' :: '/' :: p.data))).data
    have hin : dd ∉ splitChars ('.' :: '/' :: p.data) := by
      rw [show splitChars ('.' :: '/' :: p.data)
            = consGroup '.' ([] :: splitChars p.data) by
          rw [splitChars, if_neg (by decide), splitChars, if_pos rfl]]
      rw [consGroup]
      intro hc
      rcases List.mem_cons.mp hc with hc | hc
      · exact absurd hc (by decide)
      · exact h hc
    unfold goCleanChars
    rw [if_neg (by simp), if_neg (by simp)]
    by_cases hs : joinChars (cleanComps false (splitChars ('.' :: '/' :: p.data))) = []
    · rw [if_pos hs]
      decide
    · rw [if_neg hs]
      rw [string_data_mk]
      rw [splitChars_join _ (cleanComps_noslash _ _ (splitChars_groups_noslash _))
        (fun hc => hs (by rw [hc]; rfl))]
      exact cleanComps_ddFree false _ hin

/-! ## Claim theorems -/

/-- C6: in namespace mode the sandbox builder performs its steps in this
fixed order: remount `/` as recursive slave; create and self-bind `./root`
and chdir into it; mount proc; mount tmpfs on tmp; populate dev; apply the
configured mounts in order; then mkdir `.old`, `pivot_root(".", ".old")`,
remount `.old` private-recursive, unmount `.old` with `MNT_DETACH`, remove
`.old`; and finally write `etc/resolv.conf` — so proc is mounted before the
pivot and the DNS file is written after it. -/
theorem sandbox_setup_order (ms : List Mount) :
    setupOps ms =
      ([Sys.mount "" "/" "" [MFlag.slave, MFlag.recursive],
        Sys.mkdir "root",
        Sys.mount "root" "root" "" [MFlag.bind, MFlag.priv],
        Sys.chdir "root",
        Sys.mkdir "proc",
        Sys.mount "none" "proc" "proc" [],
        Sys.mkdir "tmp",
        Sys.mount "none" "tmp" "tmpfs" [],
        Sys.mkdir "dev",
        Sys.mount "none" "dev" "tmpfs" [],
        Sys.openCreate "dev/console",
        Sys.mount "/dev/console" "dev/console" "" [MFlag.bind, MFlag.priv],
        Sys.openCreate "dev/null",
        Sys.mount "/dev/null" "dev/null" "" [MFlag.bind, MFlag.priv],
        Sys.openCreate "dev/zero",
        Sys.mount "/dev/zero" "dev/zero" "" [MFlag.bind, MFlag.priv],
        Sys.openCreate "dev/random",
        Sys.mount "/dev/random" "dev/random" "" [MFlag.bind, MFlag.priv],
        Sys.openCreate "dev/urandom",
        Sys.mount "/dev/urandom" "dev/urandom" "" [MFlag.bind, MFlag.priv],
        Sys.symlink "/proc/self/fd" "dev/fd",
        Sys.symlink "fd/0" "dev/stdin",
        Sys.symlink "fd/1" "dev/stdout",
        Sys.symlink "fd/2" "dev/stderr"]
        ++ applyMountsOps ms)
      ++ [Sys.mkdir ".old",
          Sys.pivot "." ".old",
          Sys.mount "" ".old" "" [MFlag.priv, MFlag.recursive],
          Sys.unmount ".old" [MFlag.detach],
          Sys.remove ".old",
          Sys.mkdir "etc",
          Sys.writeFile "etc/resolv.conf" "nameserver 8.8.8.8\nnameserver 8.8.4.4\n"] := by
  unfold setupOps
  rw [show prepareNewRootOps ++ mountProcOps ++ mountTmpOps ++ populateDevOps
      = [Sys.mount "" "/" "" [MFlag.slave, MFlag.recursive],
         Sys.mkdir "root",
         Sys.mount "root" "root" "" [MFlag.bind, MFlag.priv],
         Sys.chdir "root",
         Sys.mkdir "proc",
         Sys.mount "none" "proc" "proc" [],
         Sys.mkdir "tmp",
         Sys.mount "none" "tmp" "tmpfs" [],
         Sys.mkdir "dev",
         Sys.mount "none" "dev" "tmpfs" [],
         Sys.openCreate "dev/console",
         Sys.mount "/dev/console" "dev/console" "" [MFlag.bind, MFlag.priv],
         Sys.openCreate "dev/null",
         Sys.mount "/dev/null" "dev/null" "" [MFlag.bind, MFlag.priv],
         Sys.openCreate "dev/zero",
         Sys.mount "/dev/zero" "dev/zero" "" [MFlag.bind, MFlag.priv],
         Sys.openCreate "dev/random",
         Sys.mount "/dev/random" "dev/random" "" [MFlag.bind, MFlag.priv],
         Sys.openCreate "dev/urandom",
         Sys.mount "/dev/urandom" "dev/urandom" "" [MFlag.bind, MFlag.priv],
         Sys.symlink "/proc/self/fd" "dev/fd",
         Sys.symlink "fd/0" "dev/stdin",
         Sys.symlink "fd/1" "dev/stdout",
         Sys.symlink "fd/2" "dev/stderr"] from rfl]
  rw [List.append_assoc _ pivotRootOps configureDNSOps]
  rfl

/-- C7: bytes accumulate in the transmitter's buffer while the length stays
below 100; a `Write` that reaches 100 or more emits exactly one frame
holding the buffered bytes followed by the new data and empties the buffer;
`Flush` emits the residual buffer, or nothing when it is empty; and over any
sequence of writes the emitted frames concatenated with the residual buffer
reproduce the written bytes in order. -/
theorem log_transmitter_buffering :
    (∀ (st : LogTx) (data : List Nat),
        st.buf.length + data.length < 100 →
          ltWrite st data = (⟨st.buf ++ data⟩, none)) ∧
    (∀ (st : LogTx) (data : List Nat),
        100 ≤ st.buf.length + data.length →
          ltWrite st data = (⟨[]⟩, some (st.buf ++ data))) ∧
    (∀ (st : LogTx), st.buf = [] → ltFlush st = (st, none)) ∧
    (∀ (st : LogTx), st.buf ≠ [] → ltFlush st = (⟨[]⟩, some st.buf)) ∧
    (∀ (ds : List (List Nat)) (st : LogTx),
        ((ltWriteAll ds st).2).flatten ++ (ltWriteAll ds st).1.buf
          = st.buf ++ ds.flatten) := by
  refine ⟨?_, ?_, ?_, ?_, ?_⟩
  · intro st data hlt
    unfold ltWrite
    rw [if_pos hlt]
  · intro st data hge
    unfold ltWrite
    rw [if_neg (not_lt.mpr hge)]
  · intro st hb
    unfold ltFlush
    rw [if_pos hb]
  · intro st hb
    unfold ltFlush
    rw [if_neg hb]
  · intro ds
    induction ds with
    | nil => intro st; simp [ltWriteAll]
    | cons d rest ih =>
      intro st
      unfold ltWriteAll
      by_cases hlt : st.buf.length + d.length < 100
      · rw [show ltWrite st d = (⟨st.buf ++ d⟩, none) by unfold ltWrite; rw [if_pos hlt]]
        rw [ih ⟨st.buf ++ d⟩]
        simp
      · rw [show ltWrite st d = (⟨[]⟩, some (st.buf ++ d)) by
            unfold ltWrite; rw [if_neg hlt]]
        rcases hrec : ltWriteAll rest ⟨[]⟩ with ⟨st2, fs⟩
        have hih := ih (⟨[]⟩ : LogTx)
        rw [hrec] at hih
        simp only [List.nil_append] at hih
        simp only [hrec, List.flatten_cons, List.append_assoc]
        rw [hih]

/-- Witness for the log-transmitter theorem: a 99-byte accumulation stays
buffered, the write reaching 100 emits one frame with all bytes in order,
and a flush of a non-empty buffer emits it. -/
theorem log_transmitter_buffering_witness :
    ltWrite ⟨List.replicate 60 7⟩ (List.replicate 39 8)
        = (⟨List.replicate 60 7 ++ List.replicate 39 8⟩, none) ∧
    ltWrite ⟨List.replicate 60 7⟩ (List.replicate 40 8)
        = (⟨[]⟩, some (List.replicate 60 7 ++ List.replicate 40 8)) ∧
    ltFlush ⟨[5]⟩ = (⟨[]⟩, some [5]) :=
  ⟨log_transmitter_buffering.1 ⟨List.replicate 60 7⟩ (List.replicate 39 8) (by simp),
   log_transmitter_buffering.2.1 ⟨List.replicate 60 7⟩ (List.replicate 40 8) (by simp),
   log_transmitter_buffering.2.2.2.1 ⟨[5]⟩ (by simp)⟩

/-- C8: the executor requires the first received frame to be a `Config`;
on any other first event (another message type, a receive failure, or end
of stream) it terminates with an error, with no sandbox setup performed and
no request dispatched or answered. -/
theorem first_frame_must_be_config (handle : Msg → Option String)
    (events : List RecvEvent) (h : firstIsConfig events = false) :
    (runExec handle events).setupDone = false ∧
    (runExec handle events).sent = [] ∧
    (runExec handle events).err ≠ none := by
  cases events with
  | nil => exact ⟨rfl, rfl, by simp [runExec]⟩
  | cons e rest =>
    cases e with
    | eof => exact ⟨rfl, rfl, by simp [runExec]⟩
    | fail s => exact ⟨rfl, rfl, by simp [runExec]⟩
    | msg m =>
      cases m with
      | config c => exact absurd h (by simp [firstIsConfig])
      | execute cmd => exact ⟨rfl, rfl, by simp [runExec]⟩
      | copy a b => exact ⟨rfl, rfl, by simp [runExec]⟩
      | initFromDocker a b => exact ⟨rfl, rfl, by simp [runExec]⟩
      | result s => exact ⟨rfl, rfl, by simp [runExec]⟩
      | log st t => exact ⟨rfl, rfl, by simp [runExec]⟩

/-- Witness for the first-frame theorem at a concrete non-`Config` first
frame. -/
theorem first_frame_must_be_config_witness :
    (runExec (fun _ => none) [RecvEvent.msg (Msg.execute "echo")]).setupDone = false ∧
    (runExec (fun _ => none) [RecvEvent.msg (Msg.execute "echo")]).sent = [] ∧
    (runExec (fun _ => none) [RecvEvent.msg (Msg.execute "echo")]).err ≠ none :=
  first_frame_must_be_config (fun _ => none) [RecvEvent.msg (Msg.execute "echo")]
    (by decide)

/-- Helper for C9: the dispatch loop answers each request in order with one
`Result` carrying the handler's error string (empty on success), and ends
cleanly when the stream ends. -/
theorem loopRun_requests (handle : Msg → Option String) (rs : List Msg)
    (h : ∀ r ∈ rs, isRequest r = true) :
    loopRun handle (rs.map RecvEvent.msg ++ [RecvEvent.eof])
      = (rs.map (fun r => Msg.result ((handle r).getD "")), none) := by
  induction rs with
  | nil => rfl
  | cons r rest ih =>
    have hr := h r (by simp)
    simp only [List.map_cons, List.cons_append]
    unfold loopRun
    rw [if_pos hr, ih (fun x hx => h x (by simp [hx]))]

/-- C9: after `Config`, the executor sends exactly one `Result` per request,
in order, whose error field is the handler's error string or empty on
success; the loop continues past request-local failures; and EOF on stdin
(context not cancelled) ends the loop cleanly with no error and no extra
`Result`. -/
theorem dispatch_one_result_per_request (handle : Msg → Option String)
    (c : WConfig) (rs : List Msg) (h : ∀ r ∈ rs, isRequest r = true) :
    runExec handle (RecvEvent.msg (Msg.config c) :: rs.map RecvEvent.msg
        ++ [RecvEvent.eof])
      = ⟨true, rs.map (fun r => Msg.result ((handle r).getD "")), none⟩ := by
  show (match loopRun handle (rs.map RecvEvent.msg ++ [RecvEvent.eof]) with
    | (sent, e) => (⟨true, sent, e⟩ : ExecOut)) = _
  rw [loopRun_requests handle rs h]

/-- Witness for the dispatch theorem: two requests whose handlers fail are
both answered, in order, and the loop then exits cleanly on EOF. -/
theorem dispatch_one_result_per_request_witness :
    runExec (fun _ => some "exit status 1")
        [RecvEvent.msg (Msg.config ⟨false, []⟩),
         RecvEvent.msg (Msg.execute "false"),
         RecvEvent.msg (Msg.copy "src" "dst"),
         RecvEvent.eof]
      = ⟨true, [Msg.result "exit status 1", Msg.result "exit status 1"], none⟩ :=
  dispatch_one_result_per_request (fun _ => some "exit status 1") ⟨false, []⟩
    [Msg.execute "false", Msg.copy "src" "dst"] (by decide)

/-- C10: every successful step's first filesystem operation is the
recursive removal `os.RemoveAll(header.Name)`, performed before any
creation; concretely, a directory entry whose path already exists as a
directory tree deletes the whole tree (including files from earlier layers)
and replaces it with an empty directory. -/
theorem entry_removeAll_first :
    (∀ (h : Header) (s : IncState) (r : IncState × List FsOp),
        step h s = Except.ok r → r.2.head? = some (FsOp.removeAll h.name)) ∧
    (step ⟨"a", TypeFlag.dir, "", 0, 0, 493⟩
        ⟨[(["a"], FType.dir), (["a", "x"], FType.file), (["a", "b"], FType.dir),
          (["a", "b", "y"], FType.file)], [], []⟩
      = Except.ok (⟨[(["a"], FType.dir)], [], ["a"]⟩,
          [FsOp.removeAll "a", FsOp.mkdirAll "a" 493, FsOp.lchown "a" 0 0,
           FsOp.chmod "a" 493]) ∧
      fsChildren [(["a"], FType.dir)] ["a"] = []) := by
  constructor
  · intro h s r hstep
    unfold step at hstep
    cases hcl : stepClassified h (fsRemoveAll (resolve h.name) s.fs) s.del s.added with
    | error e =>
      rw [hcl] at hstep
      exact absurd hstep (by simp)
    | ok p =>
      obtain ⟨s', ops⟩ := p
      rw [hcl] at hstep
      injection hstep with h2
      subst h2
      rfl
  · exact ⟨rfl, rfl⟩

/-- Witness for the removal-first theorem: a concrete regular-file entry. -/
theorem entry_removeAll_first_witness :
    ([FsOp.removeAll "b", FsOp.createFile "b" 420, FsOp.lchown "b" 0 0,
      FsOp.chmod "b" 420] : List FsOp).head? = some (FsOp.removeAll "b") :=
  entry_removeAll_first.1 ⟨"b", TypeFlag.reg, "", 0, 0, 420⟩ ⟨[], [], []⟩
    (⟨[(["b"], FType.file)], [], ["b"]⟩,
     [FsOp.removeAll "b", FsOp.createFile "b" 420, FsOp.lchown "b" 0 0,
      FsOp.chmod "b" 420]) rfl

/-- The pending-delete set never grows: no branch of the loop body inserts
into `del`, because `os.RemoveAll` returns nil for a missing target and the
`os.IsNotExist` recording branch is therefore unreachable. -/
theorem step_del_never_grows (h : Header) (s : IncState) (r : IncState × List FsOp)
    (hstep : step h s = Except.ok r) : ∀ x ∈ r.1.del, x ∈ s.del := by
  unfold step at hstep
  cases hcl : stepClassified h (fsRemoveAll (resolve h.name) s.fs) s.del s.added with
  | error e =>
    rw [hcl] at hstep
    exact absurd hstep (by simp)
  | ok p =>
    obtain ⟨s', ops⟩ := p
    rw [hcl] at hstep
    injection hstep with h2
    subst h2
    unfold stepClassified finishEntry at hcl
    repeat' split at hcl
    all_goals try exact Except.noConfusion hcl
    all_goals
      (injection hcl with ha;
       injection ha with h1 h2;
       subst h1;
       intro x hx;
       first
         | exact hx
         | exact (List.mem_filter.mp hx).1)

/-- Witness for the never-grows theorem: a whiteout of a missing target
leaves `del` unchanged. -/
theorem step_del_never_grows_witness : ∀ x ∈ ([] : List String), x ∈ ([] : List String) :=
  step_del_never_grows ⟨".wh.data", TypeFlag.reg, "", 0, 0, 420⟩ ⟨[], [], []⟩
    (⟨[], [], []⟩, [FsOp.removeAll ".wh.data", FsOp.removeAll "data"]) rfl

/-- C2's failing input, evaluated: a layer holding the whiteout `.wh.data`
whose target `data` does not exist, followed by an entry creating `data`.
The spec requires the missing target to be recorded in `pending_delete` and
the later creation suppressed; the code never reaches the recording branch
because `os.RemoveAll` returns nil for a missing path, so `del` stays empty
and `data` is created. -/
theorem whiteout_missing_target_not_recorded :
    runLayer [⟨".wh.data", TypeFlag.reg, "", 0, 0, 420⟩,
              ⟨"data", TypeFlag.reg, "", 0, 0, 420⟩] ⟨[], [], []⟩
      = Except.ok ⟨[(["data"], FType.file)], [], ["data"]⟩ := rfl

/-- C4: `increment` succeeds only when the SHA-256 of the raw compressed
blob bytes, formatted as `sha256:<hex>`, equals the digest declared in the
manifest; when the layer applies cleanly but the digest differs, the result
is precisely the retryable digest-mismatch error; and a retryable failure
at one attempt makes the retry wrapper invoke the operation — which
downloads and applies the whole layer — again at the next attempt. -/
theorem digest_verification :
    (∀ (hash : List Nat → String) (digest : String) (blob : List Nat)
        (entries : List Header) (s s' : IncState),
        increment hash digest blob entries s = Except.ok s' →
          "sha256:" ++ hash blob = digest) ∧
    (∀ (hash : List Nat → String) (digest : String) (blob : List Nat)
        (entries : List Header) (s s1 : IncState),
        runLayer entries s = Except.ok s1 →
        "sha256:" ++ hash blob ≠ digest →
          increment hash digest blob entries s
            = Except.error (GoErr.retryable ("digest doesn't match, expected: "
                ++ digest ++ ", got: " ++ ("sha256:" ++ hash blob)))) ∧
    (∀ (hash : List Nat → String) (digest : String) (blobs : Nat → List Nat)
        (entriesF : Nat → List Header) (s : IncState) (n i : Nat) (e : String),
        increment hash digest (blobs i) (entriesF i) s
            = Except.error (GoErr.retryable e) →
          retryGo (fun j => increment hash digest (blobs j) (entriesF j) s) (n + 2) i
            = retryGo (fun j => increment hash digest (blobs j) (entriesF j) s)
                (n + 1) (i + 1)) := by
  refine ⟨?_, ?_, ?_⟩
  · intro hash digest blob entries s s' hok
    unfold increment at hok
    split at hok
    · exact absurd hok (by simp)
    · split at hok
      · assumption
      · exact absurd hok (by simp)
  · intro hash digest blob entries s s1 hrl hne
    unfold increment
    rw [hrl]
    show (if "sha256:" ++ hash blob = digest then Except.ok s1
      else Except.error (GoErr.retryable ("digest doesn't match, expected: " ++ digest
        ++ ", got: " ++ ("sha256:" ++ hash blob)))) = _
    rw [if_neg hne]
  · intro hash digest blobs entriesF s n i e hretry
    conv_lhs => rw [retryGo]
    rw [hretry]
    simp

/-- Witness for the digest theorem at concrete inputs: a matching digest
succeeds, a mismatching digest produces the retryable mismatch error, and
the retry wrapper steps to the next attempt on that error. -/
theorem digest_verification_witness :
    "sha256:" ++ (fun (_ : List Nat) => "ab") [] = "sha256:ab" ∧
    increment (fun _ => "ab") "sha256:cd" [1, 2] [] ⟨[], [], []⟩
      = Except.error (GoErr.retryable
          "digest doesn't match, expected: sha256:cd, got: sha256:ab") ∧
    retryGo (fun _j => increment (fun _ => "ab") "sha256:cd" [] [] ⟨[], [], []⟩) 2 0
      = retryGo (fun _j => increment (fun _ => "ab") "sha256:cd" [] [] ⟨[], [], []⟩) 1 1 := by
  refine ⟨?_, ?_, ?_⟩
  · exact digest_verification.1 (fun _ => "ab") "sha256:ab" [] [] ⟨[], [], []⟩ ⟨[], [], []⟩
      rfl
  · have := digest_verification.2.1 (fun _ => "ab") "sha256:cd" [1, 2] [] ⟨[], [], []⟩
      ⟨[], [], []⟩ rfl (by decide)
    exact this
  · exact digest_verification.2.2 (fun _ => "ab") "sha256:cd" (fun _ => []) (fun _ => [])
      ⟨[], [], []⟩ 0 0 "digest doesn't match, expected: sha256:cd, got: sha256:ab"
      (by rfl)

/-- Shape of a successful creating branch: the operation list is the
creation operations — none of which is a chmod — followed by `lchown`,
followed, unless the entry is a symlink, by a final `chmod`. -/
theorem stepClassified_creates_shape (h : Header) (fs : Fs) (del added : List String)
    (p : IncState × List FsOp)
    (hok : stepClassified h fs del added = Except.ok p)
    (hn1 : ¬ pBase h.name = ".wh..wh..plnk")
    (hn2 : ¬ pBase h.name = ".wh..wh..opq")
    (hn3 : startsWh (pBase h.name) = false)
    (hn4 : del.contains h.name = false)
    (hty : h.typeflag = TypeFlag.dir ∨ h.typeflag = TypeFlag.reg
      ∨ h.typeflag = TypeFlag.symlink ∨ h.typeflag = TypeFlag.link) :
    ∃ pre, p.2 = pre ++ [FsOp.lchown h.name h.uid h.gid]
        ++ (if h.typeflag = TypeFlag.symlink then [] else [FsOp.chmod h.name h.mode])
      ∧ ∀ q m, FsOp.chmod q m ∉ pre := by
  unfold stepClassified at hok
  rw [if_neg hn1, if_neg hn2, hn3, if_neg Bool.false_ne_true, hn4,
    if_neg Bool.false_ne_true] at hok
  rcases hty with hf | hf | hf | hf <;> rw [hf] at hok <;> dsimp only at hok
  · cases hmk : fsMkdirAll fs (resolve h.name) with
    | error e => rw [hmk] at hok; exact Except.noConfusion hok
    | ok fs' =>
      rw [hmk] at hok
      injection hok with ha
      refine ⟨[FsOp.mkdirAll h.name h.mode], ?_, ?_⟩
      · rw [← ha]
        rfl
      · intro q m hm
        simp at hm
  · cases hmk : fsCreateFile fs (resolve h.name) with
    | error e => rw [hmk] at hok; exact Except.noConfusion hok
    | ok fs' =>
      rw [hmk] at hok
      injection hok with ha
      refine ⟨[FsOp.createFile h.name h.mode], ?_, ?_⟩
      · rw [← ha]
        rfl
      · intro q m hm
        simp at hm
  · cases hmk : fsSymlink fs h.linkname (resolve h.name) with
    | error e => rw [hmk] at hok; exact Except.noConfusion hok
    | ok fs' =>
      rw [hmk] at hok
      injection hok with ha
      refine ⟨[FsOp.symlink h.linkname h.name], ?_, ?_⟩
      · rw [← ha]
        rfl
      · intro q m hm
        simp at hm
  · cases hme : fsEnsureFile fs (resolve h.linkname) with
    | error e => rw [hme] at hok; exact Except.noConfusion hok
    | ok fs1 =>
      rw [hme] at hok
      dsimp only at hok
      cases hml : fsLink fs1 (resolve h.linkname) (resolve h.name) with
      | error e => rw [hml] at hok; exact Except.noConfusion hok
      | ok fs' =>
        rw [hml] at hok
        injection hok with ha
        refine ⟨[FsOp.openExcl h.linkname h.mode, FsOp.link h.linkname h.name], ?_, ?_⟩
        · rw [← ha]
          rfl
        · intro q m hm
          simp at hm

/-- C3: for every tar entry that reaches a creating branch and succeeds,
`chmod` with the header's mode bits is the very last operation on the path
and immediately follows `lchown` with the header's uid and gid; for symlink
entries `lchown` is the last operation and no chmod is ever issued. -/
theorem chmod_last_after_lchown (h : Header) (s : IncState) (r : IncState × List FsOp)
    (hstep : step h s = Except.ok r) (hc : createsEntry h s = true) :
    (h.typeflag ≠ TypeFlag.symlink →
      r.2.getLast? = some (FsOp.chmod h.name h.mode) ∧
      r.2.dropLast.getLast? = some (FsOp.lchown h.name h.uid h.gid)) ∧
    (h.typeflag = TypeFlag.symlink →
      r.2.getLast? = some (FsOp.lchown h.name h.uid h.gid) ∧
      ∀ q m, FsOp.chmod q m ∉ r.2) := by
  simp only [createsEntry, Bool.and_eq_true, Bool.or_eq_true, Bool.not_eq_true',
    decide_eq_true_eq] at hc
  obtain ⟨⟨⟨⟨hn1, hn2⟩, hn3⟩, hn4⟩, hty⟩ := hc
  unfold step at hstep
  cases hcl : stepClassified h (fsRemoveAll (resolve h.name) s.fs) s.del s.added with
  | error e =>
    rw [hcl] at hstep
    exact Except.noConfusion hstep
  | ok p =>
    obtain ⟨s', ops⟩ := p
    rw [hcl] at hstep
    injection hstep with h2
    subst h2
    obtain ⟨pre, hshape, hnoch⟩ :=
      stepClassified_creates_shape h (fsRemoveAll (resolve h.name) s.fs) s.del s.added
        (s', ops) hcl hn1 hn2 hn3 hn4 (by tauto)
    dsimp only at hshape
    constructor
    · intro hsym
      rw [if_neg hsym] at hshape
      constructor
      · show (FsOp.removeAll h.name :: ops).getLast? = _
        rw [hshape,
          show FsOp.removeAll h.name
                :: (pre ++ [FsOp.lchown h.name h.uid h.gid] ++ [FsOp.chmod h.name h.mode])
              = (FsOp.removeAll h.name :: (pre ++ [FsOp.lchown h.name h.uid h.gid]))
                ++ [FsOp.chmod h.name h.mode] by simp]
        exact List.getLast?_concat _
      · show (FsOp.removeAll h.name :: ops).dropLast.getLast? = _
        rw [hshape,
          show FsOp.removeAll h.name
                :: (pre ++ [FsOp.lchown h.name h.uid h.gid] ++ [FsOp.chmod h.name h.mode])
              = ((FsOp.removeAll h.name :: pre) ++ [FsOp.lchown h.name h.uid h.gid])
                ++ [FsOp.chmod h.name h.mode] by simp,
          List.dropLast_concat]
        exact List.getLast?_concat _
    · intro hsym
      rw [if_pos hsym] at hshape
      constructor
      · show (FsOp.removeAll h.name :: ops).getLast? = _
        rw [hshape,
          show FsOp.removeAll h.name
                :: (pre ++ [FsOp.lchown h.name h.uid h.gid] ++ [])
              = (FsOp.removeAll h.name :: pre) ++ [FsOp.lchown h.name h.uid h.gid]
            by simp]
        exact List.getLast?_concat _
      · intro q m hm
        have hm' : FsOp.chmod q m ∈ FsOp.removeAll h.name :: ops := hm
        rw [hshape] at hm'
        simp only [List.append_nil, List.mem_cons, List.mem_append,
          List.mem_singleton] at hm'
        rcases hm' with hm | hm | hm | hm
        · exact FsOp.noConfusion hm
        · exact hnoch q m hm
        · exact FsOp.noConfusion hm
        · exact absurd hm (List.not_mem_nil _)

/-- Witness for the chmod-ordering theorem: a concrete regular-file entry
gets its chmod last, a concrete symlink entry ends with lchown. -/
theorem chmod_last_after_lchown_witness :
    ([FsOp.removeAll "b", FsOp.createFile "b" 420, FsOp.lchown "b" 0 0,
      FsOp.chmod "b" 420] : List FsOp).getLast? = some (FsOp.chmod "b" 420) ∧
    ([FsOp.removeAll "s", FsOp.symlink "target" "s",
      FsOp.lchown "s" 12 34] : List FsOp).getLast? = some (FsOp.lchown "s" 12 34) :=
  ⟨((chmod_last_after_lchown ⟨"b", TypeFlag.reg, "", 0, 0, 420⟩ ⟨[], [], []⟩
      (⟨[(["b"], FType.file)], [], ["b"]⟩,
       [FsOp.removeAll "b", FsOp.createFile "b" 420, FsOp.lchown "b" 0 0,
        FsOp.chmod "b" 420]) rfl (by decide)).1 (by decide)).1,
   ((chmod_last_after_lchown ⟨"s", TypeFlag.symlink, "target", 12, 34, 511⟩ ⟨[], [], []⟩
      (⟨[(["s"], FType.symlink "target")], [], ["s"]⟩,
       [FsOp.removeAll "s", FsOp.symlink "target" "s", FsOp.lchown "s" 12 34]) rfl
      (by decide)).2 rfl).1⟩

/-- C1 (amended): `applyMounts` forces every container path relative before
any mount call — the target of every mkdir and mount operation it issues is
`filepath.Join(".", container)`, which never starts with a separator — and
whenever the original container path has no `..` component (in particular
for absolute paths such as `/etc/passwd`), the realized mount point is
confined to the new root.  A `..` component survives the join and can
escape the root. -/
theorem applyMounts_path_confinement :
    (∀ (ms : List Mount) (op : Sys) (t : String), op ∈ applyMountsOps ms →
        sysTarget op = some t → t.data.head? ≠ some '/') ∧
    (∀ (m : Mount), dd ∉ splitChars m.container.data →
        mountConfined (pJoin "." m.container) = true) := by
  constructor
  · intro ms op t hop ht
    rw [applyMountsOps, List.mem_flatMap] at hop
    obtain ⟨m, _, hopm⟩ := hop
    have hc : t = pJoin "." m.container := by
      rcases List.mem_append.mp hopm with hh | hh
      · rcases List.mem_cons.mp hh with he | he
        · subst he
          injection ht with h'
          exact h'.symm
        · rw [List.mem_singleton] at he
          subst he
          injection ht with h'
          exact h'.symm
      · by_cases hw : m.writable
        · rw [if_pos hw] at hh
          exact absurd hh (List.not_mem_nil _)
        · rw [if_neg hw, List.mem_singleton] at hh
          subst hh
          injection ht with h'
          exact h'.symm
    rw [hc]
    exact pJoin_dot_relative m.container
  · intro m hdd
    have h1 := pJoin_dot_relative m.container
    have h2 := pJoin_dot_ddFree m.container hdd
    simp [mountConfined, hasDotDot, h1, h2]

/-- The claim as stated fails for a container path with `..` components:
`/..` is realized as `..`, which is relative but escapes the new root. -/
theorem applyMounts_confinement_counterexample :
    pJoin "." "/.." = ".." ∧ mountConfined (pJoin "." "/..") = false := by
  decide

/-- Witness for the confinement theorem: the absolute container path
`/etc/passwd` is realized as the relative, confined path `etc/passwd`. -/
theorem applyMounts_path_confinement_witness :
    ("etc/passwd" : String).data.head? ≠ some '/' ∧
    mountConfined (pJoin "." "/etc/passwd") = true :=
  ⟨applyMounts_path_confinement.1 [⟨"/h", "/etc/passwd", true⟩]
      (Sys.mkdirAll (pJoin "." "/etc/passwd")) "etc/passwd" (by decide) (by decide),
   applyMounts_path_confinement.2 ⟨"/h", "/etc/passwd", true⟩ (by decide)⟩

/-! ### Filesystem lemmas for the opaque-marker theorem -/

theorem fsLookup_cons (e : List String × FType) (rest : Fs) (q : List String) :
    fsLookup (e :: rest) q = if e.1 = q then some e.2 else fsLookup rest q := rfl

theorem fsRemoveAll_id (p : List String) (fs : Fs)
    (h : ∀ e ∈ fs, isUnder p e.1 = false) : fsRemoveAll p fs = fs := by
  unfold fsRemoveAll
  rw [List.filter_eq_self]
  intro e he
  rw [h e he]
  rfl

theorem fsRemoveAll_cons_kept (p : List String) (e : List String × FType) (rest : Fs)
    (h : isUnder p e.1 = false) :
    fsRemoveAll p (e :: rest) = e :: fsRemoveAll p rest := by
  unfold fsRemoveAll
  rw [List.filter_cons, h]
  rfl

theorem fsRemoveAll_cons_dropped (p : List String) (e : List String × FType) (rest : Fs)
    (h : isUnder p e.1 = true) :
    fsRemoveAll p (e :: rest) = fsRemoveAll p rest := by
  unfold fsRemoveAll
  rw [List.filter_cons, h]
  rfl

theorem fsLookup_removeAll_none (p q : List String) (fs : Fs)
    (h : isUnder p q = true) : fsLookup (fsRemoveAll p fs) q = none := by
  induction fs with
  | nil => rfl
  | cons e rest ih =>
    cases hu : isUnder p e.1 with
    | true =>
      rw [fsRemoveAll_cons_dropped p e rest hu]
      exact ih
    | false =>
      rw [fsRemoveAll_cons_kept p e rest hu, fsLookup_cons]
      have hne : ¬ e.1 = q := by
        intro hq
        rw [hq, h] at hu
        exact Bool.noConfusion hu
      rw [if_neg hne]
      exact ih

theorem fsLookup_removeAll_other (p q : List String) (fs : Fs)
    (h : isUnder p q = false) : fsLookup (fsRemoveAll p fs) q = fsLookup fs q := by
  induction fs with
  | nil => rfl
  | cons e rest ih =>
    rw [fsLookup_cons]
    cases hu : isUnder p e.1 with
    | true =>
      rw [fsRemoveAll_cons_dropped p e rest hu]
      have hne : ¬ e.1 = q := by
        intro hq
        rw [hq, h] at hu
        exact Bool.noConfusion hu
      rw [if_neg hne]
      exact ih
    | false =>
      rw [fsRemoveAll_cons_kept p e rest hu, fsLookup_cons]
      by_cases he : e.1 = q
      · rw [if_pos he, if_pos he]
      · rw [if_neg he, if_neg he]
        exact ih

theorem fsLookup_none_removeAll (p q : List String) (fs : Fs)
    (h : fsLookup fs q = none) : fsLookup (fsRemoveAll p fs) q = none := by
  cases hu : isUnder p q with
  | true => exact fsLookup_removeAll_none p q fs hu
  | false => rw [fsLookup_removeAll_other p q fs hu]; exact h

theorem isUnder_refl (p : List String) : isUnder p p = true := by
  induction p with
  | nil => rfl
  | cons a as ih => simp [isUnder, ih]

theorem isUnder_append_last (d : List String) (a b : String) (h : ¬ a = b) :
    isUnder (d ++ [a]) (d ++ [b]) = false := by
  induction d with
  | nil => simp [isUnder, h]
  | cons x xs ih => simp [isUnder, ih]

theorem opqSweep_cons (dir : String) (added : List String) (c : String)
    (rest : List String) (fs : Fs) :
    opqSweep dir added (c :: rest) fs
      = opqSweep dir added rest
          (if added.contains (pJoin dir c) then fs
           else fsRemoveAll (resolve (pJoin dir c)) fs) := rfl

theorem opqSweep_none_mono (dir : String) (added : List String) (cs : List String)
    (q : List String) :
    ∀ (fs : Fs), fsLookup fs q = none → fsLookup (opqSweep dir added cs fs) q = none := by
  induction cs with
  | nil => exact fun fs h => h
  | cons c rest ih =>
    intro fs h
    rw [opqSweep_cons]
    by_cases hc : added.contains (pJoin dir c) = true
    · rw [if_pos hc]
      exact ih fs h
    · rw [if_neg hc]
      exact ih _ (fsLookup_none_removeAll _ _ _ h)

theorem opqSweep_lookup_eq (dir : String) (added : List String) (cs : List String)
    (q : List String) :
    ∀ (fs : Fs),
      (∀ c ∈ cs, added.contains (pJoin dir c) = false →
        isUnder (resolve (pJoin dir c)) q = false) →
      fsLookup (opqSweep dir added cs fs) q = fsLookup fs q := by
  induction cs with
  | nil => exact fun fs _ => rfl
  | cons c rest ih =>
    intro fs h
    rw [opqSweep_cons]
    by_cases hc : added.contains (pJoin dir c) = true
    · rw [if_pos hc]
      exact ih fs (fun c' hc' => h c' (by simp [hc']))
    · rw [if_neg hc]
      have hc' : added.contains (pJoin dir c) = false := by
        cases hh : added.contains (pJoin dir c)
        · rfl
        · exact absurd hh hc
      rw [ih _ (fun c' hcm => h c' (by simp [hcm]))]
      exact fsLookup_removeAll_other _ _ _ (h c (by simp) hc')

theorem opqSweep_removed (dir : String) (added : List String) (cs : List String)
    (q : List String) (c : String)
    (hmem : c ∈ cs) (hadd : added.contains (pJoin dir c) = false)
    (hund : isUnder (resolve (pJoin dir c)) q = true) :
    ∀ (fs : Fs), fsLookup (opqSweep dir added cs fs) q = none := by
  induction cs with
  | nil => cases hmem
  | cons c0 rest ih =>
    intro fs
    rw [opqSweep_cons]
    rcases List.mem_cons.mp hmem with he | he
    · subst he
      rw [if_neg (by rw [hadd]; exact Bool.false_ne_true)]
      exact opqSweep_none_mono _ _ _ _ _ (fsLookup_removeAll_none _ _ _ hund)
    · by_cases hc0 : added.contains (pJoin dir c0) = true
      · rw [if_pos hc0]
        exact ih he fs
      · rw [if_neg hc0]
        exact ih he _

theorem fsChildren_mem (fs : Fs) (d : List String) (c : String)
    (h : c ∈ fsChildren fs d) : ∃ e ∈ fs, e.1 = d ++ [c] := by
  unfold fsChildren at h
  rw [List.mem_filterMap] at h
  obtain ⟨e, he, hcn⟩ := h
  unfold childName at hcn
  by_cases hq : e.1.dropLast = d ∧ e.1 ≠ []
  · rw [if_pos hq] at hcn
    refine ⟨e, he, ?_⟩
    rw [List.getLast?_eq_getLast e.1 hq.2] at hcn
    injection hcn with hc
    rw [← hq.1, ← hc]
    exact (List.dropLast_append_getLast hq.2).symm
  · rw [if_neg hq] at hcn
    exact Option.noConfusion hcn

theorem fsWf_goodName (fs : Fs) (hwf : fsWf fs = true) (e : List String × FType)
    (he : e ∈ fs) : ∀ c ∈ e.1, goodName c.data = true := by
  unfold fsWf at hwf
  rw [List.all_eq_true] at hwf
  have h1 := hwf e he
  rw [Bool.and_eq_true, List.all_eq_true] at h1
  exact h1.2

/-- C5: when a layer contains the opaque marker `.wh..wh..opq`, every direct
child of the marker's parent directory whose joined path is not in the
`added` set is recursively removed, and every child whose joined path is in
`added` — that is, created by the current layer — is left in place. -/
theorem opaque_marker_semantics (h : Header) (s : IncState) (r : IncState × List FsOp)
    (hstep : step h s = Except.ok r)
    (hb : pBase h.name = ".wh..wh..opq")
    (habs : ∀ e ∈ s.fs, isUnder (resolve h.name) e.1 = false)
    (hwf : fsWf s.fs = true) :
    ∀ c ∈ fsChildren s.fs (resolve (pDir h.name)),
      (s.added.contains (pJoin (pDir h.name) c) = true →
        fsLookup r.1.fs (resolve (pDir h.name) ++ [c])
          = fsLookup s.fs (resolve (pDir h.name) ++ [c])) ∧
      (s.added.contains (pJoin (pDir h.name) c) = false →
        fsLookup r.1.fs (resolve (pDir h.name) ++ [c]) = none) := by
  have hrm : fsRemoveAll (resolve h.name) s.fs = s.fs := fsRemoveAll_id _ _ habs
  unfold step at hstep
  rw [hrm] at hstep
  cases hcl : stepClassified h s.fs s.del s.added with
  | error e =>
    rw [hcl] at hstep
    exact Except.noConfusion hstep
  | ok p =>
    obtain ⟨s', ops⟩ := p
    rw [hcl] at hstep
    injection hstep with h2
    subst h2
    unfold stepClassified at hcl
    rw [hb] at hcl
    rw [if_neg (by decide), if_pos rfl] at hcl
    by_cases hdir : fsIsDir s.fs (resolve (pDir h.name)) = true
    · rw [if_pos hdir] at hcl
      injection hcl with ha
      injection ha with ha1 ha2
      subst ha1
      intro c hcmem
      obtain ⟨e, hef, heq⟩ := fsChildren_mem s.fs (resolve (pDir h.name)) c hcmem
      have hgood : goodName c.data = true := by
        apply fsWf_goodName s.fs hwf e hef
        rw [heq]
        simp
      constructor
      · intro hadd
        show fsLookup (opqSweep (pDir h.name) s.added
            (fsChildren s.fs (resolve (pDir h.name))) s.fs) _ = _
        apply opqSweep_lookup_eq
        intro c' hc' hcadd'
        obtain ⟨e', hef', heq'⟩ := fsChildren_mem s.fs (resolve (pDir h.name)) c' hc'
        have hgood' : goodName c'.data = true := by
          apply fsWf_goodName s.fs hwf e' hef'
          rw [heq']
          simp
        rw [resolve_pJoin_name _ _ hgood']
        apply isUnder_append_last
        intro hcc
        rw [hcc] at hcadd'
        rw [hadd] at hcadd'
        exact Bool.noConfusion hcadd'
      · intro hadd
        show fsLookup (opqSweep (pDir h.name) s.added
            (fsChildren s.fs (resolve (pDir h.name))) s.fs) _ = none
        refine opqSweep_removed (pDir h.name) s.added _ _ c hcmem hadd ?_ _
        rw [resolve_pJoin_name _ _ hgood]
        exact isUnder_refl _
    · rw [if_neg hdir] at hcl
      exact Except.noConfusion hcl

/-- Witness for the opaque-marker theorem: in a directory `d` holding `a`
(created by this layer, in `added`) and `b` (from an earlier layer), the
marker removes `b` and keeps `a`. -/
theorem opaque_marker_semantics_witness :
    (fsLookup [(["d"], FType.dir), (["d", "a"], FType.file)] (["d"] ++ ["a"])
        = fsLookup [(["d"], FType.dir), (["d", "a"], FType.file), (["d", "b"], FType.file)]
            (["d"] ++ ["a"])) ∧
    fsLookup [(["d"], FType.dir), (["d", "a"], FType.file)] (["d"] ++ ["b"]) = none := by
  have hspec := opaque_marker_semantics ⟨"d/.wh..wh..opq", TypeFlag.reg, "", 0, 0, 420⟩
    ⟨[(["d"], FType.dir), (["d", "a"], FType.file), (["d", "b"], FType.file)], [], ["d/a"]⟩
    (⟨[(["d"], FType.dir), (["d", "a"], FType.file)], [], ["d/a"]⟩,
     [FsOp.removeAll "d/.wh..wh..opq", FsOp.removeAll "d/b"])
    rfl (by decide) (by decide) (by decide)
  exact ⟨(hspec "a" (by decide)).1 (by decide), (hspec "b" (by decide)).2 (by decide)⟩

end Isolator
